import Mathlib

/-!
Verification of the segment-labeling audio tool (a React/wavesurfer app).

The development shallowly embeds the program's data model and operations:

* `Row` is the segment record `{id, label, maxLen, start, end, color}`
  (the JS field `end` is spelled `end_` because `end` is a Lean keyword).
* Time values (seconds) and audio samples are modelled as rationals `ℚ`;
  the relevant JS arithmetic (`+`, `*`, `min`, `max`, `Math.floor`,
  comparisons) is exact on the inputs considered, so `ℚ` is a faithful
  model of the double-precision values produced by these operations.
* The audio duration argument `dur` is `Option ℚ`: `none` models the JS
  value `Infinity` (the code computes `dur = ... || Infinity`, so a finite
  duration is always a positive number).
* Byte buffers are `List ℕ` with every entry < 256; 16/32-bit stores wrap
  modulo 2^16 / 2^32 exactly as `DataView.setUint16/setUint32` do.
-/

/-- Constant `MIN_LEN = 0.5` from the source. -/
def MIN_LEN : ℚ := 1/2

/-- Constant `MAX_LEN = 5.0` from the source. -/
def MAX_LEN : ℚ := 5

/-- Constant `DEFAULT_MAX_LEN = 1.0` from the source. -/
def DEFAULT_MAX_LEN : ℚ := 1

/-- Constant `MAX_REGIONS = 7` from the source. -/
def MAX_REGIONS : ℕ := 7

/-- The fixed 7-swatch palette `COLORS` from the source. -/
def COLORS : List String :=
  ["#22c55e55", "#3b82f655", "#ef444455", "#eab30855", "#a855f755",
   "#06b6d455", "#f9731655"]

/-- A segment row `{id, label, maxLen, start, end, color}` from the source
(`end` is a Lean keyword, spelled `end_` here). -/
structure Row where
  id : String
  label : String
  maxLen : ℚ
  start : ℚ
  end_ : ℚ
  color : String
deriving DecidableEq

/-- Default row used only as the `getD` fallback when indexing lists of rows. -/
def defaultRow : Row :=
  { id := "", label := "", maxLen := 0, start := 0, end_ := 0, color := "" }

instance : Inhabited Row := ⟨defaultRow⟩

/-- A partial update passed to `updateRow`: possibly-present `maxLen`,
`start`, `end`, `label` fields (`patch.f ?? r.f` is `Option.getD`). -/
structure Patch where
  maxLen : Option ℚ := none
  start : Option ℚ := none
  end_ : Option ℚ := none
  label : Option String := none
deriving DecidableEq

/-- `pickColor(rowsArr)` from the source:
`COLORS.find(c => !used.has(c)) || COLORS[0]` where `used` is the set of
colors of `rowsArr`.  (All palette entries are truthy strings, so `||`
fires exactly when `find` returns `undefined`.) -/
def pickColor (rowsArr : List Row) : String :=
  let used := rowsArr.map Row.color
  (COLORS.find? (fun c => !(used.contains c))).getD (COLORS.getD 0 "")

/-- Loop body of `ensureUniqueColors`, with `used` the set of colors already
assigned to earlier rows (the JS `Set`, modelled as a list queried with
`contains`).  Mirrors:
`let c = (r.color && COLORS.includes(r.color) && !used.has(r.color)) ? r.color : null;
 if (!c) c = COLORS.find(x => !used.has(x)) || COLORS[0];
 used.add(c); return {...r, color: c};` -/
def chooseColor (used : List String) (r : Row) : String :=
  if !(r.color == "") && COLORS.contains r.color && !(used.contains r.color)
  then r.color
  else (COLORS.find? (fun x => !(used.contains x))).getD (COLORS.getD 0 "")

/-- The traversal of `ensureUniqueColors`, threading the `used` set. -/
def ensureGo (used : List String) : List Row → List Row
  | [] => []
  | r :: rest =>
    let c := chooseColor used r
    { r with color := c } :: ensureGo (c :: used) rest

/-- `ensureUniqueColors(rowsArr)` from the source (the `map` with a mutable
`used` set is the accumulating recursion `ensureGo`). -/
def ensureUniqueColors (rowsArr : List Row) : List Row :=
  ensureGo [] rowsArr

/-- Specification helper: a row with its color erased, used to state that
`ensureUniqueColors` changes nothing but the color. -/
def stripColor (r : Row) : Row := { r with color := "" }

/-- The per-row computation of `updateRow(id, patch)` from the source, for the
row whose id matches (the spec calls it `applyPatch`):

`const maxAllowed = Math.min(MAX_LEN, dur + 1);
 const maxLen = Math.min(maxAllowed, Math.max(MIN_LEN, patch.maxLen ?? r.maxLen));
 let start = patch.start ?? r.start;
 const latestStart = Math.max(0, dur - maxLen);
 if (isFinite(dur)) start = Math.min(start, latestStart);
 const endCandidate = patch.end ?? r.end;
 const end = Math.min(start + maxLen, isFinite(dur) ? dur : endCandidate);
 return { ...r, ...patch, maxLen, start, end };`

`dur = none` models `Infinity` (then `Math.min(MAX_LEN, dur + 1) = MAX_LEN`
and the `isFinite` branches are skipped).  The spread `{...r, ...patch, ...}`
lets `patch.label` through and overrides `maxLen`, `start`, `end` with the
computed values. -/
def applyPatch (r : Row) (p : Patch) (dur : Option ℚ) : Row :=
  let maxAllowed : ℚ := match dur with
    | some d => min MAX_LEN (d + 1)
    | none => MAX_LEN
  let maxLen := min maxAllowed (max MIN_LEN (p.maxLen.getD r.maxLen))
  let start0 := p.start.getD r.start
  let start := match dur with
    | some d => min start0 (max 0 (d - maxLen))
    | none => start0
  let endCandidate := p.end_.getD r.end_
  let e := min (start + maxLen) (match dur with
    | some d => d
    | none => endCandidate)
  { id := r.id, label := p.label.getD r.label, maxLen := maxLen,
    start := start, end_ := e, color := r.color }

/-- `updateRow(id, patch)` from the source: `setRows(prev => prev.map(r => ...))`,
patching exactly the rows whose id matches. -/
def updateRow (rows : List Row) (id : String) (p : Patch) (dur : Option ℚ) :
    List Row :=
  rows.map (fun r => if r.id == id then applyPatch r p dur else r)

/-- The `region-updated` handler from the source: look up the dragged row's
`maxLen`, snap the region end to `start + maxLen` if the drag exceeded it,
then map the row list, setting `start` and `end = min(start + maxLen, end)`. -/
def dragUpdate (rows : List Row) (id : String) (regStart regEnd : ℚ) :
    List Row :=
  let maxLen := match rows.find? (fun r => r.id == id) with
    | some meta => meta.maxLen
    | none => DEFAULT_MAX_LEN
  let re := if regStart + maxLen < regEnd then regStart + maxLen else regEnd
  rows.map (fun r =>
    if r.id == id then { r with start := regStart, end_ := min (regStart + r.maxLen) re }
    else r)

/-- `addRow()` from the source.  Returns the new row list together with
`(alerted, regionAdded)`: whether the blocking `alert` fired and whether
`regions.addRegion` was called.

`if (!wsRef.current || !canAddRegion) return;
 if (rows.length >= MAX_REGIONS) { alert(...); return; }
 const color = pickColor(rowsShadowRef.current);
 const start = 0; const end = Math.min(DEFAULT_MAX_LEN, duration);
 regions.addRegion(...); setRows(prev => [...prev, {...}]);`

(`rowsShadowRef.current` always mirrors `rows`.) -/
def addRowFull (rows : List Row) (canAdd : Bool) (newId : String) (dur : ℚ) :
    List Row × Bool × Bool :=
  if !canAdd then (rows, false, false)
  else if MAX_REGIONS ≤ rows.length then (rows, true, false)
  else
    let color := pickColor rows
    let e := min DEFAULT_MAX_LEN dur
    (rows ++ [{ id := newId, label := "", maxLen := DEFAULT_MAX_LEN,
                start := 0, end_ := e, color := color }], false, true)

/-- `renderRowsToRegions(rowsToDraw)` from the source, restricted to its
effect on the row state: `setRows(ensureUniqueColors(rowsToDraw).slice(0, MAX_REGIONS))`. -/
def renderRows (rowsToDraw : List Row) : List Row :=
  (ensureUniqueColors rowsToDraw).take MAX_REGIONS

/-- The events that mutate the `rows` state in the source: `addRow`,
`updateRow`, the `region-updated` drag handler, `removeRow`,
`clearAllRegions` (also run by `loadFile`), and `renderRowsToRegions`
(run both when restoring a cached list and when seeding the default
segment, so its argument is an arbitrary list). -/
inductive AppEvent where
  | add (canAdd : Bool) (newId : String) (dur : ℚ)
  | update (id : String) (p : Patch) (dur : Option ℚ)
  | drag (id : String) (regStart regEnd : ℚ)
  | remove (id : String)
  | clear
  | render (rowsToDraw : List Row)

/-- One step of the row-state transition system. -/
def step (rows : List Row) (e : AppEvent) : List Row :=
  match e with
  | .add canAdd newId dur => (addRowFull rows canAdd newId dur).1
  | .update id p dur => updateRow rows id p dur
  | .drag id s e2 => dragUpdate rows id s e2
  | .remove id => rows.filter (fun r => r.id != id)
  | .clear => []
  | .render l => renderRows l

/-- The row state reached from the initial empty list by a sequence of events. -/
def runEvents (events : List AppEvent) : List Row :=
  events.foldl step []

/-!  Per-file region cache.

`fileRowsRef` is a JS `Map` from File Identity Keys to row lists, and
`localStorage` (under the `wavseg:rows:` prefix) stores a JSON copy.  Both
are modelled as association lists looked up by first match; `Map.set` /
`localStorage.setItem` replace the binding for a key, which is
observationally the same as prepending the new binding, and
`Map.delete` / `removeItem` drop it, i.e. filter it out.  The JSON
round-trip through `localStorage` preserves every field by value. -/

/-- The two stores: in-memory `fileRowsRef` map and `localStorage`. -/
structure CacheState where
  mem : List (String × List Row)
  ls : List (String × List Row)

/-- `persistCurrent()` from the source (and the identical `useEffect` body):
`fileRowsRef.current.set(key, rows); saveRowsLS(key, rows);`.
`saveRowsLS` swallows storage failures (`try { setItem } catch { warn }`),
so `lsOk` records whether the durable write succeeded. -/
def persist (st : CacheState) (key : String) (rows : List Row) (lsOk : Bool) :
    CacheState :=
  { mem := (key, rows) :: st.mem,
    ls := if lsOk then (key, rows) :: st.ls else st.ls }

/-- The restore lookup in `loadFile` from the source:
`let cached = fileRowsRef.current.get(key); if (!cached) cached = loadRowsLS(key);`
(an in-memory hit wins; `localStorage` is consulted only when the map has no
binding — a bound empty list is truthy in JS and does not fall through). -/
def restore (st : CacheState) (key : String) : Option (List Row) :=
  match st.mem.lookup key with
  | some r => some r
  | none => st.ls.lookup key

/-- The purge in `completeAndNext()` from the source:
`fileRowsRef.current.delete(curKey); deleteRowsLS(curKey);`. -/
def purge (st : CacheState) (key : String) : CacheState :=
  { mem := st.mem.filter (fun p => p.1 != key),
    ls := st.ls.filter (fun p => p.1 != key) }

/-- `hasCached` from `loadFile`:
`const hasCached = Array.isArray(cached) && cached.length > 0;`
(`cached` is `null`/`undefined` when `restore` found nothing). -/
def hasCached (o : Option (List Row)) : Bool :=
  match o with
  | some l => decide (0 < l.length)
  | none => false

/-- `seedOnReadyRef.current = !hasCached` from `loadFile`: when true, the
`ready` handler seeds the default single segment. -/
def seedFlag (o : Option (List Row)) : Bool := !hasCached o

/-!  Export file naming (`saveRow`). -/

/-- The ECMAScript `\s` character class (whitespace matched by the
`/\s+/g` regex in `saveRow`). -/
def jsWsChars : List Char :=
  ['\t', '\n', '\x0b', '\x0c', '\r', ' ', '\u00a0', '\u1680',
   '\u2000', '\u2001', '\u2002', '\u2003', '\u2004', '\u2005', '\u2006',
   '\u2007', '\u2008', '\u2009', '\u200a', '\u2028', '\u2029', '\u202f',
   '\u205f', '\u3000', '\ufeff']

/-- Whether a character is JS regex whitespace. -/
def isWs (c : Char) : Bool := jsWsChars.contains c

/-- Scanner for `label.replace(/\s+/g, "_")` from `saveRow`: `inRun` records
whether the scanner is inside a whitespace run whose underscore was already
emitted; each maximal whitespace run thus produces exactly one underscore. -/
def squashWsAux (inRun : Bool) : List Char → List Char
  | [] => []
  | c :: rest =>
    if isWs c then
      if inRun then squashWsAux true rest else '_' :: squashWsAux true rest
    else c :: squashWsAux false rest

/-- `label.replace(/\s+/g, "_")` from `saveRow`: each maximal run of
whitespace becomes a single underscore. -/
def squashWs (l : List Char) : List Char := squashWsAux false l

/-- Modelled from the spec: "whitespace replaced with underscores", read as
the run description — split the label into maximal runs, replace each
whitespace run by one underscore, keep every non-whitespace run.  Used to
check `squashWs` (the source's regex replace) against the spec's words. -/
def runsSpec : List Char → List Char
  | [] => []
  | c :: rest =>
    if isWs c then '_' :: runsSpec (rest.dropWhile isWs)
    else (c :: rest.takeWhile (fun x => !isWs x)) ++
      runsSpec (rest.dropWhile (fun x => !isWs x))
termination_by l => l.length
decreasing_by
  · simpa using Nat.lt_succ_of_le (List.dropWhile_sublist isWs).length_le
  · simpa using Nat.lt_succ_of_le (List.dropWhile_sublist (fun x => !isWs x)).length_le

/-- `name.lastIndexOf(".")`: index of the last dot, or -1. -/
def lastDotIdx (name : List Char) : ℤ :=
  let ri := name.reverse.indexOf '.'
  if ri = name.length then -1 else (name.length : ℤ) - 1 - ri

/-- `baseName(name)` from the source:
`const i = name.lastIndexOf("."); return i > 0 ? name.slice(0, i) : name;`. -/
def baseName (name : List Char) : List Char :=
  let i := lastDotIdx name
  if 0 < i then name.take i.toNat else name

/-- The sanitized label from `saveRow`:
`const label = (r.label || "seg").replace(/\s+/g, "_");`
(only the empty string is falsy, so the default fires exactly on `""`). -/
def sanitizeLabel (label : List Char) : List Char :=
  squashWs (if label = [] then "seg".data else label)

/-- The download file name built by `saveRow`:
`a.download = ` the template string `base_label.wav`. -/
def saveFileName (origName label : List Char) : List Char :=
  baseName origName ++ '_' :: (sanitizeLabel label ++ ".wav".data)

/-!  Audio buffers, the WAV encoder and the buffer slicer. -/

/-- A decoded audio buffer: sample rate, frame count (`ab.length`), and one
float sample list per channel (`getChannelData`).  Well-formed buffers have
every channel of length `length`. -/
structure AudioBuffer where
  sampleRate : ℕ
  length : ℕ
  channels : List (List ℚ)

/-- `ab.numberOfChannels`. -/
def AudioBuffer.numberOfChannels (ab : AudioBuffer) : ℕ := ab.channels.length

/-- The sample of channel `ch` at frame `i` (`ab.getChannelData(ch)[i]`,
0 outside the stored data). -/
def sampleAt (ab : AudioBuffer) (ch i : ℕ) : ℚ :=
  (ab.channels.getD ch []).getD i 0

/-- The `interleaved` array built by `audioBufferToWav`:
`interleaved[i * numChannels + ch] = getChannelData(ch)[i]`, i.e. the
frame-major sequence of samples. -/
def interleave (ab : AudioBuffer) : List ℚ :=
  (List.range ab.length).flatMap
    (fun i => (List.range ab.numberOfChannels).map (fun ch => sampleAt ab ch i))

/-- `Math.max(-1, Math.min(1, x))`. -/
def clamp1 (x : ℚ) : ℚ := max (-1) (min 1 x)

/-- JS number-to-integer conversion (truncation toward zero), as performed
by `DataView.setInt16` on a non-integer value. -/
def jsTrunc (q : ℚ) : ℤ := if q < 0 then -⌊-q⌋ else ⌊q⌋

/-- The PCM16 conversion in `audioBufferToWav`:
`let s = Math.max(-1, Math.min(1, x)); view.setInt16(off, s < 0 ? s * 0x8000 : s * 0x7fff)`. -/
def pcm16 (x : ℚ) : ℤ :=
  jsTrunc (if clamp1 x < 0 then clamp1 x * 32768 else clamp1 x * 32767)

/-- Little-endian bytes of `setUint16` (wraps modulo 2^16). -/
def u16le (n : ℕ) : List ℕ := [n % 256, n / 256 % 256]

/-- Little-endian bytes of `setUint32` (wraps modulo 2^32). -/
def u32le (n : ℕ) : List ℕ :=
  [n % 256, n / 256 % 256, n / 65536 % 256, n / 16777216 % 256]

/-- Little-endian bytes of `setInt16` on an integer in [-2^15, 2^15):
two's complement. -/
def i16le (i : ℤ) : List ℕ := u16le (i % 65536).toNat

/-- `writeString`: the `charCodeAt` bytes of an ASCII tag. -/
def asciiBytes (s : String) : List ℕ := s.data.map Char.toNat

/-- The 44 header bytes written by `audioBufferToWav` (offsets 0–43):
RIFF tag, RIFF size `36 + dataBytes`, WAVE and `fmt ` tags, fmt chunk size 16,
PCM format 1, channel count, sample rate, byte rate, block align,
bits-per-sample 16, `data` tag, data chunk size. -/
def wavHeader (dataBytes numChannels sampleRate : ℕ) : List ℕ :=
  asciiBytes "RIFF" ++ u32le (36 + dataBytes) ++ asciiBytes "WAVE" ++
  asciiBytes "fmt " ++ u32le 16 ++ u16le 1 ++ u16le numChannels ++
  u32le sampleRate ++ u32le (sampleRate * numChannels * 2) ++
  u16le (numChannels * 2) ++ u16le 16 ++
  asciiBytes "data" ++ u32le dataBytes

/-- `audioBufferToWav(ab)` from the source: the byte sequence of the
returned blob — 44 header bytes, then each interleaved sample clamped,
scaled and stored little-endian as a signed 16-bit integer. -/
def audioBufferToWav (ab : AudioBuffer) : List ℕ :=
  wavHeader ((interleave ab).length * 2) ab.numberOfChannels ab.sampleRate ++
  (interleave ab).flatMap (fun x => i16le (pcm16 x))

/-- Little-endian 16-bit read at a byte offset. -/
def readU16 (l : List ℕ) (off : ℕ) : ℕ :=
  l.getD off 0 + 256 * l.getD (off + 1) 0

/-- Little-endian 32-bit read at a byte offset. -/
def readU32 (l : List ℕ) (off : ℕ) : ℕ :=
  l.getD off 0 + 256 * l.getD (off + 1) 0 + 65536 * l.getD (off + 2) 0 +
    16777216 * l.getD (off + 3) 0

/-- Little-endian signed 16-bit read at a byte offset. -/
def readI16 (l : List ℕ) (off : ℕ) : ℤ :=
  let v := readU16 l off
  if v < 32768 then (v : ℤ) else (v : ℤ) - 65536

/-- The claim's frame index: `floor(sec * sampleRate)` clamped to
`[0, bufferLength]`. -/
def clampFrame (sec : ℚ) (rate len : ℕ) : ℤ :=
  min (max 0 ⌊sec * (rate : ℚ)⌋) (len : ℤ)

/-- `sliceBuffer(ctx, ab, startSec, endSec)` from the source:
`const start = Math.max(0, Math.floor(startSec * ab.sampleRate));
 const end = Math.min(Math.floor(endSec * ab.sampleRate), ab.length);
 const frames = Math.max(0, end - start);
 const out = ctx.createBuffer(ab.numberOfChannels, frames, ab.sampleRate);
 for each channel: out.copyToChannel(getChannelData(ch).subarray(start, end), ch, 0);`

Each output channel holds the `frames` samples of the source channel from
frame `start` (`subarray` clamps to the available data and `copyToChannel`
copies at most `frames` samples into the zero-filled fresh buffer, which for
these indices is `drop start` then `take frames`). -/
def sliceBuffer (ab : AudioBuffer) (startSec endSec : ℚ) : AudioBuffer :=
  let start : ℤ := max 0 ⌊startSec * (ab.sampleRate : ℚ)⌋
  let e : ℤ := min ⌊endSec * (ab.sampleRate : ℚ)⌋ (ab.length : ℤ)
  let frames : ℤ := max 0 (e - start)
  { sampleRate := ab.sampleRate,
    length := frames.toNat,
    channels := ab.channels.map (fun data => (data.drop start.toNat).take frames.toNat) }

/-!  Concrete inputs used by witnesses and counterexamples. -/

/-- A typical segment row, as seeded on load. -/
def c2row : Row :=
  { id := "a", label := "", maxLen := 1, start := 0, end_ := 1,
    color := "#22c55e55" }

/-- A patch that drags the start to -1 (used to refute the unconditional
claim C2). -/
def c2cexPatch : Patch := { start := some (-1) }

/-- A patch raising `maxLen` beyond `MAX_LEN` (clamped back by the code). -/
def c2patchW : Patch := { maxLen := some 10 }

/-!  Theorems. -/

/-- Claim C2 (counterexample): as stated, the claim fails on the code.  With
duration 10, patching `start` to -1 leaves the resulting `start` negative
(the code only clamps `start` from above, never from below); and with a
negative "duration" -2 the clamp `min(MAX_LEN, dur + 1)` drives `maxLen`
below `MIN_LEN` (the code never passes such a duration: `dur` is
`... || Infinity`, so a finite duration is positive). -/
theorem applyPatch_claim_cex :
    ¬ (0 ≤ (applyPatch c2row c2cexPatch (some 10)).start) ∧
    ¬ (MIN_LEN ≤ (applyPatch c2row {} (some (-2))).maxLen) := by
  norm_num [applyPatch, c2row, c2cexPatch, MIN_LEN, MAX_LEN, min_def, max_def]

/-- Claim C2 (amended): for every segment, every partial update and every
duration, provided the patched start (`patch.start ?? r.start`) is
nonnegative and the duration, when finite, is positive (as is the case for
every duration the program produces), the segment resulting from
`applyPatch` (`updateRow`) satisfies `0.5 ≤ maxLen ≤ 5.0`, `start ≥ 0`,
`end ≤ start + maxLen`, and, when the duration is finite, `end ≤ duration`. -/
theorem applyPatch_invariants (r : Row) (p : Patch) (dur : Option ℚ)
    (hdur : ∀ d, dur = some d → 0 < d)
    (hstart : 0 ≤ p.start.getD r.start) :
    MIN_LEN ≤ (applyPatch r p dur).maxLen ∧
    (applyPatch r p dur).maxLen ≤ MAX_LEN ∧
    0 ≤ (applyPatch r p dur).start ∧
    (applyPatch r p dur).end_ ≤ (applyPatch r p dur).start + (applyPatch r p dur).maxLen ∧
    ∀ d, dur = some d → (applyPatch r p dur).end_ ≤ d := by
  have hML : MIN_LEN ≤ MAX_LEN := by norm_num [MIN_LEN, MAX_LEN]
  rcases dur with _ | d
  · simp only [applyPatch]
    refine ⟨le_min hML (le_max_left _ _), min_le_left _ _, hstart,
      min_le_left _ _, ?_⟩
    intro d hd
    exact absurd hd (by simp)
  · have hd : 0 < d := hdur d rfl
    have h1 : MIN_LEN ≤ d + 1 := by
      have : MIN_LEN ≤ (1 : ℚ) := by norm_num [MIN_LEN]
      linarith
    simp only [applyPatch]
    refine ⟨le_min (le_min hML h1) (le_max_left _ _),
      le_trans (min_le_left _ _) (min_le_left _ _),
      le_min hstart (le_max_left _ _), min_le_left _ _, ?_⟩
    intro d' hd'
    cases hd'
    exact min_le_right _ _

/-- Claim C2 (witness): the amended theorem applied at a concrete input —
duration 3, a patch asking for `maxLen = 10` — where the code clamps
`maxLen` to `min(MAX_LEN, 3 + 1) = 4`. -/
theorem applyPatch_invariants_witness :
    (MIN_LEN ≤ (applyPatch c2row c2patchW (some 3)).maxLen ∧
     (applyPatch c2row c2patchW (some 3)).maxLen ≤ MAX_LEN ∧
     0 ≤ (applyPatch c2row c2patchW (some 3)).start ∧
     (applyPatch c2row c2patchW (some 3)).end_ ≤
       (applyPatch c2row c2patchW (some 3)).start +
         (applyPatch c2row c2patchW (some 3)).maxLen ∧
     ∀ d, (some (3 : ℚ)) = some d → (applyPatch c2row c2patchW (some 3)).end_ ≤ d) ∧
    (applyPatch c2row c2patchW (some 3)).maxLen = 4 :=
  ⟨applyPatch_invariants c2row c2patchW (some 3)
      (fun d hd => by cases hd; norm_num)
      (by norm_num [c2row, c2patchW]),
   by norm_num [applyPatch, c2row, c2patchW, MIN_LEN, MAX_LEN, min_def, max_def]⟩

/-- Seven rows using all seven palette colors (a file at the segment cap). -/
def rows7 : List Row :=
  [{ id := "r1", label := "", maxLen := 1, start := 0, end_ := 1, color := "#22c55e55" },
   { id := "r2", label := "", maxLen := 1, start := 0, end_ := 1, color := "#3b82f655" },
   { id := "r3", label := "", maxLen := 1, start := 0, end_ := 1, color := "#ef444455" },
   { id := "r4", label := "", maxLen := 1, start := 0, end_ := 1, color := "#eab30855" },
   { id := "r5", label := "", maxLen := 1, start := 0, end_ := 1, color := "#a855f755" },
   { id := "r6", label := "", maxLen := 1, start := 0, end_ := 1, color := "#06b6d455" },
   { id := "r7", label := "", maxLen := 1, start := 0, end_ := 1, color := "#f9731655" }]

/-- `addRowFull` never grows the list beyond the cap. -/
theorem addRowFull_length_le (rows : List Row) (canAdd : Bool) (newId : String)
    (dur : ℚ) (h : rows.length ≤ MAX_REGIONS) :
    ((addRowFull rows canAdd newId dur).1).length ≤ MAX_REGIONS := by
  simp only [addRowFull]
  split
  · exact h
  · split
    · exact h
    · rename_i hlen
      simp only [List.length_append, List.length_cons, List.length_nil]
      omega

/-- `addRowFull` at or above the cap returns the list unchanged. -/
theorem addRowFull_at_cap_eq (rows : List Row) (canAdd : Bool) (newId : String)
    (dur : ℚ) (h : MAX_REGIONS ≤ rows.length) :
    (addRowFull rows canAdd newId dur).1 = rows := by
  cases canAdd <;> simp [addRowFull, h]

/-- Every single event preserves the segment cap. -/
theorem step_cap (rows : List Row) (e : AppEvent)
    (h : rows.length ≤ MAX_REGIONS) : (step rows e).length ≤ MAX_REGIONS := by
  cases e with
  | add canAdd newId dur => exact addRowFull_length_le rows canAdd newId dur h
  | update id p dur => simp only [step, updateRow, List.length_map]; exact h
  | drag id s e2 => simp only [step, dragUpdate, List.length_map]; exact h
  | remove id => exact le_trans (List.length_filter_le _ _) h
  | clear => simp [step]
  | render l => simp only [step, renderRows]; exact List.length_take_le _ _

/-- Runs from any capped state stay capped. -/
theorem foldl_step_cap (events : List AppEvent) :
    ∀ s : List Row, s.length ≤ MAX_REGIONS →
      (events.foldl step s).length ≤ MAX_REGIONS := by
  induction events with
  | nil => intro s hs; simpa using hs
  | cons e t ih => intro s hs; exact ih _ (step_cap s e hs)

/-- Claim C4: in every state reachable from the initial empty list by the
program's row mutations, the segment list has at most `MAX_REGIONS = 7`
segments; `addRow` leaves a list at the cap untouched, and
`renderRowsToRegions` truncates any list it is given (a restored cache
entry or the seeded default) to at most 7 segments. -/
theorem segment_cap_invariant (events : List AppEvent) :
    (runEvents events).length ≤ MAX_REGIONS ∧
    (∀ l, (renderRows l).length ≤ MAX_REGIONS) ∧
    (∀ rows canAdd newId dur, MAX_REGIONS ≤ rows.length →
       (addRowFull rows canAdd newId dur).1 = rows) :=
  ⟨foldl_step_cap events [] (by simp),
   fun l => by simp only [renderRows]; exact List.length_take_le _ _,
   fun rows canAdd newId dur h => addRowFull_at_cap_eq rows canAdd newId dur h⟩

/-- Claim C4 (witness): the invariant evaluated on a concrete two-add run
and on the concrete capped list `rows7`. -/
theorem segment_cap_invariant_witness :
    (runEvents [AppEvent.add true "a" 10, AppEvent.add true "b" 10]).length ≤ MAX_REGIONS ∧
    (addRowFull rows7 true "h" 10).1 = rows7 :=
  ⟨(segment_cap_invariant [AppEvent.add true "a" 10, AppEvent.add true "b" 10]).1,
   (segment_cap_invariant []).2.2 rows7 true "h" 10 (by simp [rows7, MAX_REGIONS])⟩

/-- Claim C5: when 7 segments exist (and a file is loaded, so adding is
enabled), `addRow` fires the blocking alert and is otherwise a no-op: the
row list is returned unchanged (length still 7) and no region is added.
The function is total — no exception is raised. -/
theorem addRow_at_cap (rows : List Row) (newId : String) (dur : ℚ)
    (h : rows.length = 7) :
    addRowFull rows true newId dur = (rows, true, false) ∧
    ((addRowFull rows true newId dur).1).length = 7 := by
  have : addRowFull rows true newId dur = (rows, true, false) := by
    simp [addRowFull, h, MAX_REGIONS]
  exact ⟨this, by rw [this, h]⟩

/-- Claim C5 (witness): adding an 8th segment to the concrete capped list
`rows7` alerts and changes nothing. -/
theorem addRow_at_cap_witness :
    addRowFull rows7 true "r8" 10 = (rows7, true, false) ∧
    ((addRowFull rows7 true "r8" 10).1).length = 7 :=
  addRow_at_cap rows7 "r8" 10 (by simp [rows7])

/-- Looking up the key just bound at the front of an association list. -/
theorem lookup_cons_self (key : String) (v : List Row)
    (m : List (String × List Row)) :
    List.lookup key ((key, v) :: m) = some v := by
  simp [List.lookup]

/-- Binding another key does not change a lookup. -/
theorem lookup_cons_ne (key key2 : String) (v : List Row)
    (m : List (String × List Row)) (h : key2 ≠ key) :
    List.lookup key2 ((key, v) :: m) = List.lookup key2 m := by
  have hbeq : (key2 == key) = false := by simpa using h
  simp [List.lookup, hbeq]

/-- After filtering a key out of an association list, looking it up fails. -/
theorem lookup_filter_self (key : String) (m : List (String × List Row)) :
    (m.filter (fun p => p.1 != key)).lookup key = none := by
  induction m with
  | nil => rfl
  | cons q t ih =>
    by_cases h : q.1 = key
    · simp [List.filter_cons, h, ih]
    · have hq : (q.1 != key) = true := by simpa using h
      have hk : (key == q.1) = false := by simpa using Ne.symm h
      simp [List.filter_cons, hq, List.lookup, hk, ih]

/-- Claim C6: a `persist` for a File Identity Key followed, in the same
session, by a `restore` for the same key returns exactly the persisted
segment list (value equality on all fields — rows are compared as whole
values), whether or not the best-effort durable write succeeded; and a
restore for any other key is unaffected by the persist, so a restore for
file A after a persist for file A never observes another file's data. -/
theorem persist_restore (st : CacheState) (key : String) (rows : List Row)
    (lsOk : Bool) :
    restore (persist st key rows lsOk) key = some rows ∧
    ∀ key2, key2 ≠ key →
      restore (persist st key rows lsOk) key2 = restore st key2 := by
  refine ⟨?_, ?_⟩
  · simp [restore, persist, lookup_cons_self]
  · intro key2 hne
    cases lsOk <;>
      simp [restore, persist, lookup_cons_ne key key2 rows _ hne]

/-- Claim C6 (witness): round trip on a concrete store with two files. -/
theorem persist_restore_witness :
    restore (persist ⟨[], []⟩ "a.wav|100|1" [c2row] true) "a.wav|100|1" =
      some [c2row] ∧
    restore (persist ⟨[], []⟩ "a.wav|100|1" [c2row] true) "b.wav|7|2" = none :=
  ⟨(persist_restore ⟨[], []⟩ "a.wav|100|1" [c2row] true).1,
   by
    rw [(persist_restore ⟨[], []⟩ "a.wav|100|1" [c2row] true).2 "b.wav|7|2"
      (by decide)]
    rfl⟩

/-- Claim C7: `purge` (the cache removal in `completeAndNext`) deletes the
entry from both the in-memory map and durable storage, so a subsequent
`restore` of the same key finds nothing, `hasCached` is false, and the
seed flag is set — the next load of that file seeds the default single
segment. -/
theorem purge_restore (st : CacheState) (key : String) :
    restore (purge st key) key = none ∧
    hasCached (restore (purge st key) key) = false ∧
    seedFlag (restore (purge st key) key) = true := by
  have h1 : restore (purge st key) key = none := by
    simp [restore, purge, lookup_filter_self]
  exact ⟨h1, by rw [h1]; rfl, by rw [h1]; rfl⟩

/-- The first element of a list satisfying `p`, as computed by
`(l.find? p).getD d`: either nothing satisfies `p` and the default is
returned, or the result is the element at the least satisfying index. -/
theorem find?_getD_first {α : Type} (p : α → Bool) (l : List α) (d : α) :
    ((∀ x ∈ l, p x = false) ∧ (l.find? p).getD d = d) ∨
    (∃ i, ∃ h : i < l.length, (l.find? p).getD d = l.get ⟨i, h⟩ ∧
      p (l.get ⟨i, h⟩) = true ∧
      ∀ j (hj : j < i), p (l.get ⟨j, Nat.lt_trans hj h⟩) = false) := by
  induction l with
  | nil => left; simp
  | cons a t ih =>
    cases hp : p a with
    | true =>
      right
      refine ⟨0, by simp, ?_, by simpa using hp, ?_⟩
      · simp [List.find?_cons_of_pos _ hp]
      · intro j hj
        exact absurd hj (Nat.not_lt_zero j)
    | false =>
      have hfc : List.find? p (a :: t) = List.find? p t :=
        List.find?_cons_of_neg t (by simp [hp])
      rcases ih with ⟨hall, hd⟩ | ⟨i, h, heq, hpi, hprev⟩
      · left
        refine ⟨?_, ?_⟩
        · intro x hx
          rcases List.mem_cons.mp hx with rfl | hx
          · exact hp
          · exact hall x hx
        · rw [hfc]; exact hd
      · right
        refine ⟨i + 1, by simpa using Nat.succ_lt_succ h, ?_, ?_, ?_⟩
        · rw [hfc]; simpa using heq
        · simpa using hpi
        · intro j hj
          cases j with
          | zero => exact hp
          | succ j' => simpa using hprev j' (Nat.lt_of_succ_lt_succ hj)

/-- Claim C8: `pickColor` (`assignColor`) returns the first swatch of the
fixed 7-color palette not used by any existing segment; when every palette
color is in use it falls back to the first palette color. -/
theorem pickColor_spec (rowsArr : List Row) :
    ((∀ c ∈ COLORS, c ∈ rowsArr.map Row.color) ∧
      pickColor rowsArr = COLORS.getD 0 "") ∨
    (∃ i, ∃ h : i < COLORS.length,
      pickColor rowsArr = COLORS.get ⟨i, h⟩ ∧
      COLORS.get ⟨i, h⟩ ∉ rowsArr.map Row.color ∧
      ∀ j (hj : j < i),
        COLORS.get ⟨j, Nat.lt_trans hj h⟩ ∈ rowsArr.map Row.color) := by
  have base := find?_getD_first
    (fun c => !((rowsArr.map Row.color).contains c)) COLORS (COLORS.getD 0 "")
  rcases base with ⟨hall, hd⟩ | ⟨i, h, heq, hpi, hprev⟩
  · left
    refine ⟨?_, ?_⟩
    · intro c hc
      simpa using hall c hc
    · simpa [pickColor] using hd
  · right
    refine ⟨i, h, ?_, ?_, ?_⟩
    · simpa [pickColor] using heq
    · simpa using hpi
    · intro j hj
      simpa using hprev j hj

/-- How many palette colors a `used` set occupies. -/
def usedCount (used : List String) : ℕ :=
  COLORS.countP (fun x => used.contains x)

/-- The palette has no duplicate swatches. -/
theorem COLORS_nodup : COLORS.Nodup := by decide

/-- No palette swatch is the empty string. -/
theorem COLORS_ne_empty : ∀ c ∈ COLORS, ¬ c = "" := by decide

/-- Marking a fresh palette color as used raises the used count by one. -/
theorem countP_contains_cons (l : List String) (hnd : l.Nodup) (c : String)
    (hc : c ∈ l) (used : List String) (hnu : used.contains c = false) :
    l.countP (fun x => (c :: used).contains x) =
      l.countP (fun x => used.contains x) + 1 := by
  induction l with
  | nil => cases hc
  | cons a t ih =>
    have hnd' : t.Nodup := (List.nodup_cons.mp hnd).2
    have hanotint : a ∉ t := (List.nodup_cons.mp hnd).1
    have hnu' : c ∉ used := by simpa using hnu
    rcases List.mem_cons.mp hc with rfl | hct
    · have hsame : t.countP (fun x => (c :: used).contains x) =
          t.countP (fun x => used.contains x) := by
        refine List.countP_congr ?_
        intro x hx
        have hxc : x ≠ c := fun hxeq => hanotint (hxeq ▸ hx)
        simp [List.contains_cons, hxc]
      rw [List.countP_cons, List.countP_cons, hsame]
      simp [List.contains_cons, hnu']
    · have hac : a ≠ c := fun haeq => hanotint (haeq ▸ hct)
      rw [List.countP_cons, List.countP_cons, ih hnd' hct]
      have hsplit : ((c :: used).contains a) = (used.contains a) := by
        simp [List.contains_cons, hac]
      rw [hsplit]
      omega

/-- When some palette color is unused, the find in the source succeeds and
returns an unused palette color. -/
theorem exists_unused (used : List String)
    (h : usedCount used < COLORS.length) :
    ∃ c, COLORS.find? (fun x => !(used.contains x)) = some c ∧
      c ∈ COLORS ∧ used.contains c = false := by
  cases hf : COLORS.find? (fun x => !(used.contains x)) with
  | none =>
    exfalso
    have hall := List.find?_eq_none.mp hf
    have : COLORS.countP (fun x => used.contains x) = COLORS.length :=
      List.countP_eq_length.mpr (fun a ha => by simpa using hall a ha)
    simp only [usedCount] at h
    omega
  | some c =>
    exact ⟨c, rfl, List.mem_of_find?_eq_some hf,
      by simpa using List.find?_some hf⟩

/-- The chosen color is always a fresh palette color, as long as the
palette is not exhausted. -/
theorem chooseColor_fresh (used : List String) (r : Row)
    (h : usedCount used < COLORS.length) :
    chooseColor used r ∈ COLORS ∧ used.contains (chooseColor used r) = false := by
  unfold chooseColor
  split
  · rename_i hcond
    simp only [Bool.and_eq_true, Bool.not_eq_true'] at hcond
    exact ⟨by simpa using hcond.1.2, hcond.2⟩
  · obtain ⟨c, hf, hc, hnu⟩ := exists_unused used h
    rw [hf]
    exact ⟨hc, hnu⟩

/-- A palette color not yet used is kept. -/
theorem chooseColor_keep (used : List String) (r : Row)
    (hc : r.color ∈ COLORS) (hnu : used.contains r.color = false) :
    chooseColor used r = r.color := by
  unfold chooseColor
  rw [if_pos]
  simp only [Bool.and_eq_true, Bool.not_eq_true']
  refine ⟨⟨?_, by simpa using hc⟩, hnu⟩
  simp only [beq_eq_false_iff_ne, ne_eq]
  exact COLORS_ne_empty r.color hc

/-- Invariant of the `ensureUniqueColors` traversal: starting from any
`used` set that leaves enough palette colors for the remaining rows, the
output has the same length, uses only fresh palette colors, is duplicate
free, changes nothing but colors, and keeps any original palette color not
already taken. -/
theorem ensureGo_spec (rest : List Row) :
    ∀ used : List String,
      usedCount used + rest.length ≤ COLORS.length →
      (ensureGo used rest).length = rest.length ∧
      (∀ r2 ∈ ensureGo used rest, r2.color ∈ COLORS ∧
        used.contains r2.color = false) ∧
      ((ensureGo used rest).map Row.color).Nodup ∧
      (ensureGo used rest).map stripColor = rest.map stripColor ∧
      (∀ i, i < rest.length →
        (rest.getD i defaultRow).color ∈ COLORS →
        used.contains (rest.getD i defaultRow).color = false →
        (rest.getD i defaultRow).color ∉
          ((ensureGo used rest).take i).map Row.color →
        ((ensureGo used rest).getD i defaultRow).color =
          (rest.getD i defaultRow).color) := by
  induction rest with
  | nil =>
    intro used h
    simp [ensureGo]
  | cons r rest ih =>
    intro used h
    have hlt : usedCount used < COLORS.length := by
      simp only [List.length_cons] at h
      omega
    have hcs := chooseColor_fresh used r hlt
    have hcount : usedCount (chooseColor used r :: used) = usedCount used + 1 := by
      simpa [usedCount] using
        countP_contains_cons COLORS COLORS_nodup _ hcs.1 used hcs.2
    have h' : usedCount (chooseColor used r :: used) + rest.length ≤
        COLORS.length := by
      simp only [List.length_cons] at h
      omega
    obtain ⟨ihlen, ihmem, ihnodup, ihstrip, ihkeep⟩ :=
      ih (chooseColor used r :: used) h'
    refine ⟨?_, ?_, ?_, ?_, ?_⟩
    · simp [ensureGo, ihlen]
    · intro r2 hr2
      simp only [ensureGo] at hr2
      rcases List.mem_cons.mp hr2 with rfl | hr2t
      · exact ⟨hcs.1, hcs.2⟩
      · obtain ⟨hin, hfresh⟩ := ihmem r2 hr2t
        refine ⟨hin, ?_⟩
        simp only [List.contains_cons, Bool.or_eq_false_iff] at hfresh
        exact hfresh.2
    · simp only [ensureGo, List.map_cons]
      refine List.nodup_cons.mpr ⟨?_, ihnodup⟩
      intro hmem
      obtain ⟨r2, hr2, hcol⟩ := List.mem_map.mp hmem
      have hfresh := (ihmem r2 hr2).2
      rw [hcol] at hfresh
      simp [List.contains_cons] at hfresh
    · simp only [ensureGo, List.map_cons, ihstrip]
      rfl
    · intro i hi hcol hnu hne
      cases i with
      | zero =>
        simp only [List.getD_cons_zero] at hcol hnu
        simp only [ensureGo, List.getD_cons_zero]
        exact chooseColor_keep used r hcol hnu
      | succ j =>
        simp only [List.length_cons] at hi
        simp only [List.getD_cons_succ] at hcol hnu ⊢
        simp only [ensureGo, List.getD_cons_succ]
        simp only [ensureGo, List.take_succ_cons, List.map_cons,
          List.mem_cons, not_or] at hne
        obtain ⟨hne1, hne2⟩ := hne
        have hne1' : (rest.getD j defaultRow).color ≠ chooseColor used r := by
          simpa using hne1
        refine ihkeep j (Nat.lt_of_succ_lt_succ hi) hcol ?_ hne2
        simp only [List.contains_cons, Bool.or_eq_false_iff]
        exact ⟨by simpa using hne1', hnu⟩

/-- Claim C10: on a list of at most 7 segments, `ensureUniqueColors` keeps
the length, assigns only palette colors, makes all colors pairwise
distinct, keeps a segment's original color whenever it is a palette color
not already taken by an earlier segment, and changes no field other than
the color. -/
theorem ensureUniqueColors_spec (rows : List Row)
    (h : rows.length ≤ MAX_REGIONS) :
    (ensureUniqueColors rows).length = rows.length ∧
    (∀ r2 ∈ ensureUniqueColors rows, r2.color ∈ COLORS) ∧
    ((ensureUniqueColors rows).map Row.color).Nodup ∧
    (ensureUniqueColors rows).map stripColor = rows.map stripColor ∧
    (∀ i, i < rows.length →
      (rows.getD i defaultRow).color ∈ COLORS →
      (rows.getD i defaultRow).color ∉
        ((ensureUniqueColors rows).take i).map Row.color →
      ((ensureUniqueColors rows).getD i defaultRow).color =
        (rows.getD i defaultRow).color) := by
  have hm : MAX_REGIONS = 7 := rfl
  rw [hm] at h
  have h0 : usedCount [] + rows.length ≤ COLORS.length := by
    have h1 : usedCount [] = 0 := rfl
    have h7 : COLORS.length = 7 := rfl
    omega
  obtain ⟨h1, h2, h3, h4, h5⟩ := ensureGo_spec rows [] h0
  exact ⟨h1, fun r2 hr2 => (h2 r2 hr2).1, h3, h4,
    fun i hi hcol hne => h5 i hi hcol rfl hne⟩

/-- Two rows that collide on the first palette color. -/
def c10rows : List Row :=
  [{ id := "x1", label := "one", maxLen := 1, start := 0, end_ := 1,
     color := "#22c55e55" },
   { id := "x2", label := "two", maxLen := 2, start := 1, end_ := 2,
     color := "#22c55e55" }]

/-- Claim C10 (witness): on the concrete colliding pair, the first row keeps
its color and the second is moved to the next free swatch. -/
theorem ensureUniqueColors_spec_witness :
    ((ensureUniqueColors c10rows).map Row.color).Nodup ∧
    (ensureUniqueColors c10rows).map Row.color =
      ["#22c55e55", "#3b82f655"] :=
  ⟨(ensureUniqueColors_spec c10rows (by decide)).2.2.1, by decide⟩

/-- `runsSpec` peels a single non-whitespace character off the front. -/
theorem runsSpec_cons_not_ws (c : Char) (rest : List Char)
    (h : isWs c = false) : runsSpec (c :: rest) = c :: runsSpec rest := by
  cases rest with
  | nil => simp [runsSpec, h]
  | cons d rest2 =>
    cases hd : isWs d with
    | true =>
      simp [runsSpec, h, hd, List.takeWhile_cons, List.dropWhile_cons]
    | false =>
      simp [runsSpec, h, hd, List.takeWhile_cons, List.dropWhile_cons]

/-- The scanner and the maximal-run description agree, in both scanner
states (bounded form for the induction on length): outside a run it
produces `runsSpec`, inside a run it produces `runsSpec` of the input with
the remainder of the current whitespace run removed. -/
theorem squashWs_eq_runsSpec_aux (n : ℕ) :
    ∀ l : List Char, l.length ≤ n →
      squashWsAux false l = runsSpec l ∧
      squashWsAux true l = runsSpec (l.dropWhile isWs) := by
  induction n with
  | zero =>
    intro l hl
    have hnil : l = [] := List.eq_nil_of_length_eq_zero (Nat.le_zero.mp hl)
    subst hnil
    simp [squashWsAux, runsSpec]
  | succ n ih =>
    intro l hl
    cases l with
    | nil => simp [squashWsAux, runsSpec]
    | cons c rest =>
      have hlen : rest.length ≤ n := by
        simp only [List.length_cons] at hl
        omega
      obtain ⟨ihf, iht⟩ := ih rest hlen
      cases hc : isWs c with
      | true =>
        constructor
        · simp [squashWsAux, runsSpec, hc, iht]
        · simp [squashWsAux, List.dropWhile_cons, hc, iht]
      | false =>
        rw [runsSpec_cons_not_ws c rest hc]
        constructor
        · simp [squashWsAux, hc, ihf]
        · simp [squashWsAux, List.dropWhile_cons, hc, ihf,
            runsSpec_cons_not_ws c rest hc]

/-- The source's whitespace squashing equals the spec's run replacement. -/
theorem squashWs_eq_runsSpec (l : List Char) : squashWs l = runsSpec l :=
  (squashWs_eq_runsSpec_aux l.length l le_rfl).1

/-- Claim C9: the exported file is named `{originalBaseName}_{sanitizedLabel}.wav`;
the label defaults to "seg" when empty, and sanitization replaces every
maximal whitespace run in the label by a single underscore (`runsSpec` is
the run-by-run reading of that sentence). -/
theorem saveRow_filename_spec (name label : List Char) :
    saveFileName name label =
      baseName name ++ '_' :: (sanitizeLabel label ++ ".wav".data) ∧
    (label = [] → sanitizeLabel label = "seg".data) ∧
    squashWs label = runsSpec label := by
  refine ⟨rfl, ?_, squashWs_eq_runsSpec label⟩
  intro h
  subst h
  rfl

/-- Claim C9 (witness): the naming theorem applied at a concrete file and
labels — the empty label falls back to "seg", and inner whitespace runs
collapse to single underscores. -/
theorem saveRow_filename_spec_witness :
    (saveFileName "clip01.wav".data [] =
      baseName "clip01.wav".data ++ '_' :: (sanitizeLabel [] ++ ".wav".data)) ∧
    sanitizeLabel [] = "seg".data ∧
    saveFileName "clip01.wav".data "hello  world".data =
      "clip01_hello_world.wav".data :=
  ⟨(saveRow_filename_spec "clip01.wav".data []).1,
   (saveRow_filename_spec "clip01.wav".data []).2.1 rfl,
   by decide⟩

/-- Claim C3: `sliceBuffer` yields a buffer whose per-channel frame count is
exactly `max 0 (endFrame - startFrame)` for the frame indices
`floor(sec * sampleRate)` clamped to `[0, bufferLength]` (the code clamps
`start` only from below and `end` only from above, which produces the same
frame count); the channel count is preserved, each channel is copied
independently from frame `start` on, and a zero-length range yields an
empty buffer rather than an error (the function is total). -/
theorem sliceBuffer_spec (ab : AudioBuffer) (startSec endSec : ℚ)
    (wf : ∀ c ∈ ab.channels, c.length = ab.length) :
    (((sliceBuffer ab startSec endSec).length : ℤ) =
      max 0 (clampFrame endSec ab.sampleRate ab.length -
        clampFrame startSec ab.sampleRate ab.length)) ∧
    (sliceBuffer ab startSec endSec).channels.length = ab.channels.length ∧
    (∀ c ∈ (sliceBuffer ab startSec endSec).channels,
      c.length = (sliceBuffer ab startSec endSec).length) ∧
    (∀ ch i, i < (sliceBuffer ab startSec endSec).length →
      ((sliceBuffer ab startSec endSec).channels.getD ch []).getD i 0 =
        (ab.channels.getD ch []).getD
          ((max 0 ⌊startSec * (ab.sampleRate : ℚ)⌋).toNat + i) 0) := by
  refine ⟨?_, ?_, ?_, ?_⟩
  · simp only [sliceBuffer, clampFrame]
    omega
  · simp [sliceBuffer]
  · intro c hc
    simp only [sliceBuffer, List.mem_map] at hc
    obtain ⟨data, hdata, rfl⟩ := hc
    have hlen := wf data hdata
    simp only [sliceBuffer, List.length_take, List.length_drop]
    omega
  · intro ch i hi
    simp only [sliceBuffer] at hi ⊢
    by_cases hch : ch < ab.channels.length
    · have hmap : (ab.channels.map
          (fun data => (data.drop (max 0 ⌊startSec * (ab.sampleRate : ℚ)⌋).toNat).take
            (max 0 (min ⌊endSec * (ab.sampleRate : ℚ)⌋ (ab.length : ℤ) -
              max 0 ⌊startSec * (ab.sampleRate : ℚ)⌋)).toNat)).getD ch [] =
          ((ab.channels.getD ch []).drop
            (max 0 ⌊startSec * (ab.sampleRate : ℚ)⌋).toNat).take
            (max 0 (min ⌊endSec * (ab.sampleRate : ℚ)⌋ (ab.length : ℤ) -
              max 0 ⌊startSec * (ab.sampleRate : ℚ)⌋)).toNat := by
        rw [List.getD_eq_getElem?_getD, List.getElem?_map,
          List.getElem?_eq_getElem hch]
        rw [List.getD_eq_getElem?_getD, List.getElem?_eq_getElem hch]
        rfl
      rw [hmap, List.getD_eq_getElem?_getD, List.getElem?_take_of_lt hi,
        List.getElem?_drop, List.getD_eq_getElem?_getD,
        List.getD_eq_getElem?_getD]
    · have hch' : ab.channels.length ≤ ch := Nat.le_of_not_lt hch
      have h1 : (ab.channels.map
          (fun data => (data.drop (max 0 ⌊startSec * (ab.sampleRate : ℚ)⌋).toNat).take
            (max 0 (min ⌊endSec * (ab.sampleRate : ℚ)⌋ (ab.length : ℤ) -
              max 0 ⌊startSec * (ab.sampleRate : ℚ)⌋)).toNat)).getD ch [] = [] := by
        rw [List.getD_eq_getElem?_getD, List.getElem?_eq_none (by simpa using hch')]
        rfl
      have h2 : ab.channels.getD ch [] = [] := by
        rw [List.getD_eq_getElem?_getD, List.getElem?_eq_none hch']
        rfl
      rw [h1, h2]
      rfl

/-- A ten-second 44100 Hz buffer (frame indexing only, no channel data is
needed for the frame-count computation). -/
def c3ab : AudioBuffer := { sampleRate := 44100, length := 441000, channels := [] }

/-- Claim C3 (witness): slicing the ten-second 44100 Hz buffer over
[2.0, 3.0] yields exactly 44100 frames. -/
theorem sliceBuffer_spec_witness :
    (((sliceBuffer c3ab 2 3).length : ℤ) =
      max 0 (clampFrame 3 c3ab.sampleRate c3ab.length -
        clampFrame 2 c3ab.sampleRate c3ab.length)) ∧
    (sliceBuffer c3ab 2 3).length = 44100 :=
  ⟨(sliceBuffer_spec c3ab 2 3 (by simp [c3ab])).1,
   by
    have h3 : ⌊(3:ℚ) * ((44100:ℕ) : ℚ)⌋ = 132300 := by norm_num
    have h2 : ⌊(2:ℚ) * ((44100:ℕ) : ℚ)⌋ = 88200 := by norm_num
    simp only [sliceBuffer, c3ab]
    rw [h3, h2]
    rfl⟩

/-- The header, with every byte spelled out (the tags are the `charCodeAt`
bytes of "RIFF", "WAVE", "fmt ", "data"). -/
theorem wavHeader_eq (d c r : ℕ) : wavHeader d c r =
    [82, 73, 70, 70,
     (36 + d) % 256, (36 + d) / 256 % 256, (36 + d) / 65536 % 256,
       (36 + d) / 16777216 % 256,
     87, 65, 86, 69,
     102, 109, 116, 32,
     16, 0, 0, 0,
     1, 0,
     c % 256, c / 256 % 256,
     r % 256, r / 256 % 256, r / 65536 % 256, r / 16777216 % 256,
     r * c * 2 % 256, r * c * 2 / 256 % 256, r * c * 2 / 65536 % 256,
       r * c * 2 / 16777216 % 256,
     c * 2 % 256, c * 2 / 256 % 256,
     16, 0,
     100, 97, 116, 97,
     d % 256, d / 256 % 256, d / 65536 % 256, d / 16777216 % 256] := rfl

/-- A `flatMap` whose blocks all have length `k` has length `l.length * k`. -/
theorem length_flatMap_const {α β : Type} (l : List α) (f : α → List β)
    (k : ℕ) (hf : ∀ a, (f a).length = k) :
    (l.flatMap f).length = l.length * k := by
  induction l with
  | nil => simp
  | cons a t ih =>
    simp only [List.flatMap_cons, List.length_append, hf, ih, List.length_cons]
    ring

/-- The interleaved array has `N * C` samples. -/
theorem interleave_length (ab : AudioBuffer) :
    (interleave ab).length = ab.length * ab.numberOfChannels := by
  unfold interleave
  rw [length_flatMap_const _ _ ab.numberOfChannels (fun i => by simp)]
  simp

/-- Indexing a `flatMap` over `range n` with constant block length. -/
theorem flatMap_range_getD {β : Type} (g : ℕ → List β) (d : β) (k : ℕ)
    (hg : ∀ j, (g j).length = k) :
    ∀ n i ch, i < n → ch < k →
      ((List.range n).flatMap g).getD (i * k + ch) d = (g i).getD ch d := by
  intro n
  induction n with
  | zero => omega
  | succ n ih =>
    intro i ch hi hch
    rw [List.range_succ, List.flatMap_append]
    have hlen : ((List.range n).flatMap g).length = n * k := by
      rw [length_flatMap_const _ _ k hg]
      simp
    by_cases hin : i < n
    · rw [List.getD_append]
      · exact ih i ch hin hch
      · rw [hlen]
        have h1 : i * k + ch < (i + 1) * k := by
          rw [Nat.succ_mul]
          omega
        have h2 : (i + 1) * k ≤ n * k := Nat.mul_le_mul_right _ hin
        omega
    · have hieq : i = n := by omega
      subst hieq
      rw [List.getD_append_right]
      · rw [hlen]
        have hsub : i * k + ch - i * k = ch := by omega
        rw [hsub]
        simp [List.flatMap_cons, List.getD_append, hch, hg]
      · rw [hlen]
        omega

/-- The interleaved sample at flat index `i * C + ch` is channel `ch`'s
sample at frame `i`. -/
theorem interleave_getD (ab : AudioBuffer) (i ch : ℕ) (hi : i < ab.length)
    (hch : ch < ab.numberOfChannels) :
    (interleave ab).getD (i * ab.numberOfChannels + ch) 0 = sampleAt ab ch i := by
  unfold interleave
  rw [flatMap_range_getD _ 0 ab.numberOfChannels (fun j => by simp) ab.length i ch hi hch]
  rw [List.getD_eq_getElem?_getD, List.getElem?_map, List.getElem?_range hch]
  rfl

/-- The PCM16 sample value always fits in a signed 16-bit integer. -/
theorem pcm16_bounds (x : ℚ) : -32768 ≤ pcm16 x ∧ pcm16 x ≤ 32767 := by
  have hs1 : (-1 : ℚ) ≤ clamp1 x := le_max_left _ _
  have hs2 : clamp1 x ≤ 1 := max_le (by norm_num) (min_le_left _ _)
  by_cases hneg : clamp1 x < 0
  · have hq : clamp1 x * 32768 < 0 := mul_neg_of_neg_of_pos hneg (by norm_num)
    have hval : pcm16 x = -⌊-(clamp1 x * 32768)⌋ := by
      unfold pcm16 jsTrunc
      rw [if_pos hneg, if_pos hq]
    have hup : -(clamp1 x * 32768) ≤ 32768 := by nlinarith
    have hfl : ⌊-(clamp1 x * 32768)⌋ ≤ 32768 := by
      have := Int.floor_le_floor hup
      simpa using this
    have hfl0 : 0 ≤ ⌊-(clamp1 x * 32768)⌋ :=
      Int.floor_nonneg.mpr (by nlinarith)
    rw [hval]
    omega
  · push_neg at hneg
    have hq : ¬ clamp1 x * 32767 < 0 := by nlinarith
    have hval : pcm16 x = ⌊clamp1 x * 32767⌋ := by
      unfold pcm16 jsTrunc
      rw [if_neg (not_lt.mpr hneg), if_neg hq]
    have hup : clamp1 x * 32767 ≤ 32767 := by nlinarith
    have hfl : ⌊clamp1 x * 32767⌋ ≤ 32767 := by
      have := Int.floor_le_floor hup
      simpa using this
    have hfl0 : 0 ≤ ⌊clamp1 x * 32767⌋ := Int.floor_nonneg.mpr (by nlinarith)
    rw [hval]
    omega

/-- A 16-bit read inside the left part of an append. -/
theorem readU16_prefix (l l' : List ℕ) (o : ℕ) (h : o + 1 < l.length) :
    readU16 (l ++ l') o = readU16 l o := by
  unfold readU16
  rw [List.getD_append _ _ _ _ (by omega), List.getD_append _ _ _ _ h]

/-- A 32-bit read inside the left part of an append. -/
theorem readU32_prefix (l l' : List ℕ) (o : ℕ) (h : o + 3 < l.length) :
    readU32 (l ++ l') o = readU32 l o := by
  unfold readU32
  rw [List.getD_append _ _ _ _ (by omega), List.getD_append _ _ _ _ (by omega),
    List.getD_append _ _ _ _ (by omega), List.getD_append _ _ _ _ h]

/-- A 16-bit read past the left part of an append. -/
theorem readU16_append_right (l l' : List ℕ) (o : ℕ) (h : l.length ≤ o) :
    readU16 (l ++ l') o = readU16 l' (o - l.length) := by
  unfold readU16
  rw [List.getD_append_right _ _ _ _ h, List.getD_append_right _ _ _ _ (by omega)]
  have hidx : o + 1 - l.length = o - l.length + 1 := by omega
  rw [hidx]

/-- Reassembling four little-endian bytes of a 32-bit value below 2^32. -/
theorem u32_readback (n : ℕ) (h : n < 4294967296) :
    n % 256 + 256 * (n / 256 % 256) + 65536 * (n / 65536 % 256) +
      16777216 * (n / 16777216 % 256) = n := by
  omega

/-- Reassembling two little-endian bytes of a 16-bit value below 2^16. -/
theorem u16_readback (n : ℕ) (h : n < 65536) :
    n % 256 + 256 * (n / 256 % 256) = n := by
  omega

/-- Reading pair `k` of the PCM16 payload recovers the wrapped sample. -/
theorem flatMap_pcm_readU16 (l : List ℚ) :
    ∀ k, k < l.length →
      readU16 (l.flatMap (fun x => i16le (pcm16 x))) (2 * k) =
        ((pcm16 (l.getD k 0)) % 65536).toNat := by
  induction l with
  | nil => intro k hk; simp at hk
  | cons x t ih =>
    intro k hk
    cases k with
    | zero =>
      have hnn : 0 ≤ pcm16 x % 65536 := Int.emod_nonneg _ (by norm_num)
      have hlt : pcm16 x % 65536 < 65536 := Int.emod_lt_of_pos _ (by norm_num)
      simp only [List.flatMap_cons, i16le, u16le, List.cons_append, Nat.mul_zero,
        readU16, List.getD_cons_zero, Nat.zero_add, List.getD_cons_succ]
      omega
    | succ k' =>
      have h2 : 2 * (k' + 1) = 2 * k' + 1 + 1 := by omega
      rw [h2]
      simp only [List.flatMap_cons, i16le, u16le, List.cons_append, readU16,
        List.getD_cons_succ, List.getD_cons_zero]
      have hk' : k' < t.length := by
        simp only [List.length_cons] at hk
        omega
      simpa [readU16] using ih k' hk'

/-- Claim C1: for a decoded buffer with `C` channels, sample rate `R` and
`N` frames (with the header fields in 16/32-bit range, as for any real
audio file), `audioBufferToWav` produces exactly `44 + 2*N*C` bytes; the
little-endian header holds RIFF size `36 + 2*N*C`, fmt chunk size 16,
audio format 1 (PCM), channel count `C`, sample rate `R`, byte rate
`R*C*2`, block align `C*2`, bits-per-sample 16, and data chunk size
`2*N*C`; and the payload is the channel-interleaved samples, each clamped
to [-1, 1], scaled by 32768 when negative and by 32767 otherwise
(truncated to an integer as `setInt16` does), stored as little-endian
signed 16-bit values. -/
theorem audioBufferToWav_spec (ab : AudioBuffer) (C R N : ℕ)
    (hC : ab.channels.length = C) (hR : ab.sampleRate = R)
    (hN : ab.length = N)
    (h32 : 36 + 2 * N * C < 4294967296) (hbr : R * C * 2 < 4294967296)
    (hR32 : R < 4294967296) (hC16 : C < 65536) (hC16x : C * 2 < 65536) :
    (audioBufferToWav ab).length = 44 + 2 * N * C ∧
    readU32 (audioBufferToWav ab) 4 = 36 + 2 * N * C ∧
    readU32 (audioBufferToWav ab) 16 = 16 ∧
    readU16 (audioBufferToWav ab) 20 = 1 ∧
    readU16 (audioBufferToWav ab) 22 = C ∧
    readU32 (audioBufferToWav ab) 24 = R ∧
    readU32 (audioBufferToWav ab) 28 = R * C * 2 ∧
    readU16 (audioBufferToWav ab) 32 = C * 2 ∧
    readU16 (audioBufferToWav ab) 34 = 16 ∧
    readU32 (audioBufferToWav ab) 40 = 2 * N * C ∧
    (∀ i ch, i < N → ch < C →
      readI16 (audioBufferToWav ab) (44 + 2 * (i * C + ch)) =
        pcm16 (sampleAt ab ch i)) := by
  have hnum : ab.numberOfChannels = C := by
    rw [AudioBuffer.numberOfChannels, hC]
  have hNC : (interleave ab).length = N * C := by
    rw [interleave_length, hN, hnum]
  have hNC2 : (interleave ab).length * 2 = 2 * N * C := by
    rw [hNC]
    ring
  have hbytes : audioBufferToWav ab =
      wavHeader (2 * N * C) C R ++
        (interleave ab).flatMap (fun x => i16le (pcm16 x)) := by
    unfold audioBufferToWav
    rw [hNC2, hnum, hR]
  have hhlen : (wavHeader (2 * N * C) C R).length = 44 := by
    rw [wavHeader_eq]
    rfl
  have hplen : ((interleave ab).flatMap (fun x => i16le (pcm16 x))).length =
      (N * C) * 2 := by
    rw [length_flatMap_const _ _ 2 (fun a => by simp [i16le, u16le]), hNC]
  refine ⟨?_, ?_, ?_, ?_, ?_, ?_, ?_, ?_, ?_, ?_, ?_⟩
  · rw [hbytes, List.length_append, hhlen, hplen]
    ring
  · rw [hbytes, readU32_prefix _ _ _ (by rw [hhlen]; omega), wavHeader_eq]
    exact u32_readback _ h32
  · rw [hbytes, readU32_prefix _ _ _ (by rw [hhlen]; omega), wavHeader_eq]
    rfl
  · rw [hbytes, readU16_prefix _ _ _ (by rw [hhlen]; omega), wavHeader_eq]
    rfl
  · rw [hbytes, readU16_prefix _ _ _ (by rw [hhlen]; omega), wavHeader_eq]
    exact u16_readback _ hC16
  · rw [hbytes, readU32_prefix _ _ _ (by rw [hhlen]; omega), wavHeader_eq]
    exact u32_readback _ hR32
  · rw [hbytes, readU32_prefix _ _ _ (by rw [hhlen]; omega), wavHeader_eq]
    exact u32_readback _ hbr
  · rw [hbytes, readU16_prefix _ _ _ (by rw [hhlen]; omega), wavHeader_eq]
    exact u16_readback _ hC16x
  · rw [hbytes, readU16_prefix _ _ _ (by rw [hhlen]; omega), wavHeader_eq]
    rfl
  · rw [hbytes, readU32_prefix _ _ _ (by rw [hhlen]; omega), wavHeader_eq]
    exact u32_readback _ (Nat.lt_of_le_of_lt (Nat.le_add_left _ 36) h32)
  · intro i ch hi hch
    have h1 : i * C + ch < (i + 1) * C := by
      rw [Nat.succ_mul]
      omega
    have h2 : (i + 1) * C ≤ N * C := Nat.mul_le_mul_right _ hi
    have hk : i * C + ch < N * C := Nat.lt_of_lt_of_le h1 h2
    unfold readI16
    rw [hbytes, readU16_append_right _ _ _ (by rw [hhlen]; omega), hhlen]
    have hsub : 44 + 2 * (i * C + ch) - 44 = 2 * (i * C + ch) := by omega
    rw [hsub, flatMap_pcm_readU16 _ _ (by rw [hNC]; exact hk)]
    have hv : (interleave ab).getD (i * C + ch) 0 = sampleAt ab ch i := by
      have hgd := interleave_getD ab i ch (by rw [hN]; exact hi)
        (by rw [hnum]; exact hch)
      rw [hnum] at hgd
      exact hgd
    rw [hv]
    obtain ⟨hb1, hb2⟩ := pcm16_bounds (sampleAt ab ch i)
    have hnn : 0 ≤ pcm16 (sampleAt ab ch i) % 65536 :=
      Int.emod_nonneg _ (by norm_num)
    have hlt : pcm16 (sampleAt ab ch i) % 65536 < 65536 :=
      Int.emod_lt_of_pos _ (by norm_num)
    dsimp only
    split <;> omega

/-- A tiny two-channel, two-frame buffer at 8 kHz. -/
def c1ab : AudioBuffer :=
  { sampleRate := 8000, length := 2, channels := [[1/2, -(1/2)], [0, 1]] }

/-- Claim C1 (witness): the encoder theorem applied to the concrete buffer
`c1ab`, together with the concrete PCM16 value of its first sample
(`0.5 * 32767` truncated to 16383). -/
theorem audioBufferToWav_spec_witness :
    (audioBufferToWav c1ab).length = 44 + 2 * 2 * 2 ∧
    readI16 (audioBufferToWav c1ab) (44 + 2 * (0 * 2 + 0)) =
      pcm16 (sampleAt c1ab 0 0) ∧
    pcm16 (sampleAt c1ab 0 0) = 16383 :=
  ⟨(audioBufferToWav_spec c1ab 2 8000 2 rfl rfl rfl (by norm_num) (by norm_num)
      (by norm_num) (by norm_num) (by norm_num)).1,
   (audioBufferToWav_spec c1ab 2 8000 2 rfl rfl rfl (by norm_num) (by norm_num)
      (by norm_num) (by norm_num) (by norm_num)).2.2.2.2.2.2.2.2.2.2 0 0
      (by norm_num) (by norm_num),
   by norm_num [sampleAt, c1ab, pcm16, clamp1, jsTrunc, min_def, max_def]⟩
